import Mathlib

/-!
Shallow embedding of the oxidex in-memory full-text indexing engine
(`src/oxidex.rs`, `src/document.rs`).

Rust `HashMap`s are modelled as association lists with the usual
first-occurrence lookup; `HashMap::insert`, `HashMap::remove` and the
`entry` API are modelled by the corresponding list operations below.
Filesystem reads and metadata stats are external effects: the model
passes their outcomes (`Except String _`) as arguments to
`add_document`, exactly at the two points the source performs them.
`f32` scoring is idealised over the reals (`Real.logb 10`, `Real.sqrt`).
-/

namespace Oxidex

/-! ### Association-list maps -/

/-- Lookup the value at key `k` (first occurrence), modelling `HashMap::get`. -/
def lookupKey {α β : Type} [DecidableEq α] : List (α × β) → α → Option β
  | [], _ => none
  | p :: rest, k => if p.1 = k then some p.2 else lookupKey rest k

/-- Remove every entry with key `k`, modelling `HashMap::remove`. -/
def eraseKey {α β : Type} [DecidableEq α] : List (α × β) → α → List (α × β)
  | [], _ => []
  | p :: rest, k => if p.1 = k then eraseKey rest k else p :: eraseKey rest k

/-- Insert `(k, v)`, replacing any previous binding, modelling `HashMap::insert`. -/
def insertKey {α β : Type} [DecidableEq α] (l : List (α × β)) (k : α) (v : β) :
    List (α × β) :=
  eraseKey l k ++ [(k, v)]

/-! ### Tokenizer

The source tokenizes inline in `add_document`:
`String::from_utf8_lossy` → `split_ascii_whitespace` →
`trim_matches(|c| !c.is_alphanumeric())` → `filter(|s| !s.is_empty())` →
`map(to_lowercase)`.  The Unicode character classes used by Rust's
`char::is_alphanumeric` / `to_lowercase` are std-library data external to
this repository; they are modelled by their ASCII fragments, on which the
two agree with Rust. -/

/-- The Unicode replacement character U+FFFD substituted for invalid byte
sequences by `String::from_utf8_lossy`. -/
def replacementChar : Char := Char.ofNat 0xFFFD

/-- Decoder state for an in-progress multi-byte UTF-8 sequence:
`remaining` bytes still expected, `acc` the scalar bits consumed so far,
and `lo ≤ b ≤ hi` the admissible range for the next byte (the first
continuation byte of a sequence has a restricted range that excludes
overlong encodings and surrogates). -/
structure Utf8Pending where
  remaining : Nat
  acc : Nat
  lo : Nat
  hi : Nat
  deriving DecidableEq, Repr

/-- Dispatch on a byte in the initial decoder state: ASCII decodes to
itself, a valid lead byte opens a pending sequence, anything else is an
invalid subpart replaced by `replacementChar`. -/
def utf8Start (b : Nat) : Option Utf8Pending × List Char :=
  if b < 0x80 then (none, [Char.ofNat b])
  else if b < 0xC2 then (none, [replacementChar])
  else if b < 0xE0 then (some ⟨1, b - 0xC0, 0x80, 0xBF⟩, [])
  else if b < 0xF0 then
    (some ⟨2, b - 0xE0, if b = 0xE0 then 0xA0 else 0x80,
      if b = 0xED then 0x9F else 0xBF⟩, [])
  else if b < 0xF5 then
    (some ⟨3, b - 0xF0, if b = 0xF0 then 0x90 else 0x80,
      if b = 0xF4 then 0x8F else 0xBF⟩, [])
  else (none, [replacementChar])

/-- One step of the lossy UTF-8 decoder: consume a continuation byte of the
pending sequence, or, when the byte is out of range, emit
`replacementChar` for the invalid subpart and redispatch the byte. -/
def utf8Step (p : Option Utf8Pending) (b : Nat) : Option Utf8Pending × List Char :=
  match p with
  | none => utf8Start b
  | some pd =>
    if pd.lo ≤ b ∧ b ≤ pd.hi then
      if pd.remaining = 1 then (none, [Char.ofNat (pd.acc * 0x40 + (b - 0x80))])
      else (some ⟨pd.remaining - 1, pd.acc * 0x40 + (b - 0x80), 0x80, 0xBF⟩, [])
    else
      let s := utf8Start b
      (s.1, replacementChar :: s.2)

/-- Lossy UTF-8 decoding, modelling `String::from_utf8_lossy`: decodes each
well-formed sequence to its scalar value and substitutes `replacementChar`
for each maximal invalid subpart; total, it never fails.  Bytes are
modelled as naturals below 256. -/
def from_utf8_lossy (bytes : List Nat) : List Char :=
  let r := bytes.foldl
    (fun st b => let s := utf8Step st.1 b; (s.1, st.2 ++ s.2))
    ((none : Option Utf8Pending), ([] : List Char))
  match r.1 with
  | none => r.2
  | some _ => r.2 ++ [replacementChar]

/-- Rust `char::is_ascii_whitespace`: space, tab, newline, form feed,
carriage return.  These are the split points of `split_ascii_whitespace`. -/
def isAsciiWhitespace (c : Char) : Bool :=
  c = ' ' || c = '\t' || c = '\n' || c = Char.ofNat 0x0C || c = '\r'

/-- Rust `char::is_alphanumeric`, restricted to its ASCII fragment
(`a-z`, `A-Z`, `0-9`), on which it coincides with the Unicode table. -/
def is_alphanumeric (c : Char) : Bool := c.isAlphanum

/-- Rust `char::to_lowercase`, restricted to its ASCII fragment. -/
def to_lowercase (c : Char) : Char := c.toLower

/-- Accumulator pass of `split_ascii_whitespace`: `cur` holds the current
fragment reversed. -/
def splitAsciiWsAux : List Char → List Char → List (List Char)
  | [], cur => if cur = [] then [] else [cur.reverse]
  | c :: rest, cur =>
    if isAsciiWhitespace c then
      if cur = [] then splitAsciiWsAux rest []
      else cur.reverse :: splitAsciiWsAux rest []
    else splitAsciiWsAux rest (c :: cur)

/-- Rust `str::split_ascii_whitespace`: maximal runs of non-ASCII-whitespace
characters; empty fragments never occur. -/
def split_ascii_whitespace (s : List Char) : List (List Char) :=
  splitAsciiWsAux s []

/-- Rust `str::trim_matches(|c| !c.is_alphanumeric())`: strip leading and
trailing non-alphanumeric characters. -/
def trim_matches (s : List Char) : List Char :=
  ((s.dropWhile fun c => ! is_alphanumeric c).reverse.dropWhile
    fun c => ! is_alphanumeric c).reverse

/-- The tokenizer pipeline of `add_document`, from raw bytes to the ordered
token sequence. -/
def tokenize (bytes : List Nat) : List String :=
  (((split_ascii_whitespace (from_utf8_lossy bytes)).map trim_matches).filter
    fun s => s ≠ []).map fun s => String.mk (s.map to_lowercase)

/-- ASCII encoding of a string, for writing concrete byte inputs. -/
def asciiBytes (s : String) : List Nat := s.data.map Char.toNat

/-! ### Data model (`src/document.rs`, `src/oxidex.rs`) -/

/-- Metadata snapshot (`DocMetaData`): times in seconds since the epoch,
platform permission bits, directory flag. -/
structure DocMetaData where
  create_time : Nat
  modified_time : Nat
  permissions : Nat
  is_dir : Bool
  deriving DecidableEq, Repr

/-- One registered document (`DocumentEntry`). -/
structure DocumentEntry where
  id : Nat
  path : String
  metadata : DocMetaData
  token_count : Nat
  deriving DecidableEq, Repr

/-- Constructor `DocumentEntry::new`: the `fs::metadata` stat is an external
effect whose outcome is passed as `metaRes`; on success the entry is built
from it, on failure the error propagates. -/
def DocumentEntry.new (id : Nat) (path : String) (token_count : Nat)
    (metaRes : Except String DocMetaData) : Except String DocumentEntry :=
  metaRes.map fun m => ⟨id, path, m, token_count⟩

/-- The single error kind `OxidexError::AddDocumentError(String)`. -/
inductive OxidexError where
  | AddDocumentError : String → OxidexError
  deriving DecidableEq, Repr

/-- Engine state (`struct Oxidex`): the document Registry, the Inverted
Index (term → posting list mapping document ids to occurrence counts), and
the id counter. -/
structure State where
  documents : List (Nat × DocumentEntry)
  inverted_index : List (String × List (Nat × Nat))
  next_idx : Nat
  deriving DecidableEq, Repr

/-- `Oxidex::new()`. -/
def State.new : State := ⟨[], [], 0⟩

/-- The `entry(id).and_modify(|c| *c += 1).or_insert(1)` step on one posting
list. -/
def bumpPosting : List (Nat × Nat) → Nat → List (Nat × Nat)
  | [], id => [(id, 1)]
  | (i, c) :: rest, id =>
    if i = id then (i, c + 1) :: rest else (i, c) :: bumpPosting rest id

/-- The `entry(token).or_default()` step followed by `bumpPosting`: increment
`token`'s posting count for `id` in the whole index. -/
def bumpIndex : List (String × List (Nat × Nat)) → String → Nat →
    List (String × List (Nat × Nat))
  | [], t, id => [(t, bumpPosting [] id)]
  | (s, pl) :: rest, t, id =>
    if s = t then (s, bumpPosting pl id) :: rest
    else (s, pl) :: bumpIndex rest t id

/-- The `for token in tokens` loop of `add_document`: fold `bumpIndex` over
the token sequence for the pending id. -/
def indexTokens (idx : List (String × List (Nat × Nat))) (tokens : List String)
    (id : Nat) : List (String × List (Nat × Nat)) :=
  tokens.foldl (fun a t => bumpIndex a t id) idx

/-- `Oxidex::add_document`.  The two external effects are passed in:
`readRes` is the outcome of `fs::read(&path)` and `metaRes` the outcome of
the `fs::metadata` stat inside `DocumentEntry::new`.  Returns the call's
result together with the state after the call (the source mutates `&mut
self`; a metadata failure leaves the index increments in place). -/
def add_document (st : State) (path : String)
    (readRes : Except String (List Nat)) (metaRes : Except String DocMetaData) :
    Except OxidexError Unit × State :=
  match readRes with
  | .error e => (.error (.AddDocumentError e), st)
  | .ok raw_bytes =>
    let tokens := tokenize raw_bytes
    let idx := indexTokens st.inverted_index tokens st.next_idx
    match DocumentEntry.new st.next_idx path tokens.length metaRes with
    | .error e => (.error (.AddDocumentError e), { st with inverted_index := idx })
    | .ok doc_entry =>
      (.ok (), ⟨insertKey st.documents st.next_idx doc_entry, idx, st.next_idx + 1⟩)

/-- Prune terms whose posting list is empty, modelling the
`retain(|_, m| !m.is_empty())` call of `remove_id`. -/
def pruneEmpty (idx : List (String × List (Nat × Nat))) :
    List (String × List (Nat × Nat)) :=
  idx.filter fun p => !p.2.isEmpty

/-- `Oxidex::remove_id`: removes the document entry, reports whether it
existed, erases `id` from every posting list and prunes empty lists. -/
def remove_id (st : State) (id : Nat) : Bool × State :=
  let existed := (lookupKey st.documents id).isSome
  let documents := eraseKey st.documents id
  let scrubbed := st.inverted_index.map fun p => (p.1, eraseKey p.2 id)
  (existed, ⟨documents, pruneEmpty scrubbed, st.next_idx⟩)

/-- `Oxidex::get_doc`: read-only Registry lookup. -/
def get_doc (st : State) (doc_id : Nat) : Option DocumentEntry :=
  lookupKey st.documents doc_id

/-! ### Scorer / Search

The source computes scores in `f32`; the model idealises them over `ℝ`,
with `f32::log10` as `Real.logb 10` and `f32::sqrt` as `Real.sqrt`. -/

/-- One search hit (`struct SearchResult`). -/
structure SearchResult where
  doc_id : Nat
  score : ℝ

/-- `Oxidex::term_frequency`: the raw posting count of `token` for `id`,
`0` if either lookup misses. -/
noncomputable def term_frequency (st : State) (token : String) (id : Nat) : ℝ :=
  ((((lookupKey st.inverted_index token).bind fun entry => lookupKey entry id).getD 0 :
    Nat) : ℝ)

/-- `Oxidex::inverse_document_frequency`: `log10(n / (df_t + 1))` where
`df_t` is the posting-list size of `token` (0 if unseen) and `n` the
Registry size. -/
noncomputable def inverse_document_frequency (st : State) (token : String) : ℝ :=
  let df_t : ℝ := ((((lookupKey st.inverted_index token).map fun inner =>
    inner.length).getD 0 : Nat) : ℝ)
  let n : ℝ := ((st.documents.length : Nat) : ℝ)
  Real.logb 10 (n / (df_t + 1))

/-- `Oxidex::get_tf_idf`. -/
noncomputable def get_tf_idf (st : State) (token : String) (id : Nat) : ℝ :=
  term_frequency st token id * inverse_document_frequency st token

/-- `Oxidex::get_normalised_tf_idf`: TF-IDF divided by the square root of
the document's `token_count`, defaulting to `1` when the id is missing from
the Registry. -/
noncomputable def get_normalised_tf_idf (st : State) (token : String) (id : Nat) : ℝ :=
  let tf_idf := get_tf_idf st token id
  let len : ℝ := ((((lookupKey st.documents id).map fun doc =>
    doc.token_count).getD 1 : Nat) : ℝ)
  tf_idf / Real.sqrt len

/-- The comparator of `search`'s `sort_by` call: `a` precedes `b` when
`b.score ≤ a.score`, i.e. descending score.  Over `ℝ` the order is total,
so the `partial_cmp(..).unwrap_or(Equal)` fallback for incomparable `f32`
values (NaN) is never exercised in the idealisation. -/
def searchOrder (a b : SearchResult) : Prop := b.score ≤ a.score

noncomputable instance : DecidableRel searchOrder :=
  fun a b => inferInstanceAs (Decidable (b.score ≤ a.score))

instance : IsTotal SearchResult searchOrder := ⟨fun a b => le_total b.score a.score⟩

instance : IsTrans SearchResult searchOrder :=
  ⟨fun _ _ _ h1 h2 => le_trans h2 h1⟩

/-- `Oxidex::search`: collect one `SearchResult` per id in the query's
posting list (empty when the query term is absent), then sort by descending
score. -/
noncomputable def search (st : State) (query : String) : List SearchResult :=
  let results : List SearchResult :=
    match lookupKey st.inverted_index query with
    | none => []
    | some data => data.map fun p => ⟨p.1, get_normalised_tf_idf st query p.1⟩
  List.insertionSort searchOrder results

/-! ### Specification-side scoring formula

The following definitions transcribe the SPEC's scoring formula (§4.3)
word for word, independently of the source decomposition above; claim C1
compares the two. -/

/-- Spec §4.3: `termFrequency(t, d)` = raw occurrence count of `t` in `d`'s
posting entry, or 0 if absent. -/
def termFrequencySpec (st : State) (t : String) (d : Nat) : Nat :=
  match lookupKey st.inverted_index t with
  | none => 0
  | some pl => (lookupKey pl d).getD 0

/-- Spec §4.3: `documentFrequency(t)` = number of documents in `t`'s posting
list (0 if term unseen). -/
def documentFrequencySpec (st : State) (t : String) : Nat :=
  match lookupKey st.inverted_index t with
  | none => 0
  | some pl => pl.length

/-- Spec §4.3: `N` = total number of currently registered documents. -/
def totalDocumentsSpec (st : State) : Nat := st.documents.length

/-- Spec §4.3: `tokenCount(d)` = the target document's `token_count`,
defaulting to 1 if the document is missing from the Registry. -/
def tokenCountSpec (st : State) (d : Nat) : Nat :=
  match get_doc st d with
  | none => 1
  | some doc => doc.token_count

/-- Spec §4.3: `score(t, d) = termFrequency(t,d) * log10(N /
(documentFrequency(t) + 1)) / sqrt(tokenCount(d))`. -/
noncomputable def scoreSpec (st : State) (t : String) (d : Nat) : ℝ :=
  (termFrequencySpec st t d : ℝ) *
    Real.logb 10 ((totalDocumentsSpec st : ℝ) / ((documentFrequencySpec st t : ℝ) + 1)) /
    Real.sqrt (tokenCountSpec st d : ℝ)

/-! ### Operation traces

Reachable states are those produced by running a list of public mutating
operations from `State.new`; each `add` carries the outcomes of its two
external filesystem effects. -/

/-- One public mutating operation. -/
inductive Op where
  | add (path : String) (readRes : Except String (List Nat))
      (metaRes : Except String DocMetaData)
  | remove (id : Nat)

/-- The state after one operation. -/
def stepOp (st : State) : Op → State
  | .add p r m => (add_document st p r m).2
  | .remove id => (remove_id st id).2

/-- The state after a sequence of operations starting from `st`. -/
def runFrom (st : State) (ops : List Op) : State := ops.foldl stepOp st

/-- The state after a sequence of operations starting from a new engine. -/
def run (ops : List Op) : State := runFrom State.new ops

/-- Whether an operation is an `add_document` call that succeeds (both the
file read and the metadata stat succeed); success is independent of the
state the call runs in. -/
def addSucceeds : Op → Bool
  | .add _ (.ok _) (.ok _) => true
  | _ => false

/-- Number of successful `add_document` calls in a trace. -/
def countSuccess (ops : List Op) : Nat := (ops.filter addSucceeds).length

/-- The ids assigned by the successful `add_document` calls of a trace, in
call order. -/
def assignedIds : State → List Op → List Nat
  | _, [] => []
  | st, .add p r m :: ops =>
    match add_document st p r m with
    | (.ok _, st') => st.next_idx :: assignedIds st' ops
    | (.error _, st') => assignedIds st' ops
  | st, .remove id :: ops => assignedIds (remove_id st id).2 ops

/-- Sum over all terms of the posting-list count recorded for `id`. -/
def countFor (idx : List (String × List (Nat × Nat))) (id : Nat) : Nat :=
  (idx.map fun p => (lookupKey p.2 id).getD 0).sum

/-- The posting count the index records for term `t` and document `id`
(0 when absent). -/
def postingCount (idx : List (String × List (Nat × Nat))) (t : String) (id : Nat) :
    Nat :=
  match lookupKey idx t with
  | none => 0
  | some pl => (lookupKey pl id).getD 0

/-- An operation that avoids the documented non-atomic-add hazard: it is not
an `add_document` call that reads at least one token and then fails at the
metadata step. -/
def isCleanOp : Op → Bool
  | .add _ (.ok bytes) (.error _) => tokenize bytes = []
  | _ => true

/-- The engine's cross-structure invariant: ids at or above `next_idx`
occur neither in the Registry nor in any posting list, and every
registered document's posting counts sum to its `token_count`. -/
def EngineInv (st : State) : Prop :=
  (∀ j, st.next_idx ≤ j →
    countFor st.inverted_index j = 0 ∧ lookupKey st.documents j = none)
  ∧ ∀ id e, lookupKey st.documents id = some e →
      countFor st.inverted_index id = e.token_count

/-- Well-formedness of the Inverted Index relative to the Registry: every
id occurring in a posting list belongs to a registered document (no
dangling references), and no term maps to an empty posting list. -/
def IndexWf (st : State) : Prop :=
  (∀ p ∈ st.inverted_index, ∀ q ∈ p.2,
    (lookupKey st.documents q.1).isSome = true)
  ∧ ∀ p ∈ st.inverted_index, p.2 ≠ []

/-- A fixed metadata snapshot for concrete traces. -/
def demoMeta : DocMetaData := ⟨0, 0, 0, false⟩

/-- One successful `add_document` of a two-token file. -/
def demoOps : List Op := [Op.add "f1" (.ok (asciiBytes "cat dog")) (.ok demoMeta)]

/-- The state after `demoOps`. -/
def demoState : State := run demoOps

/-- An `add_document` call that tokenizes one token and then fails at the
metadata step: the documented non-atomic-add hazard. -/
def hazardOps : List Op := [Op.add "f1" (.ok (asciiBytes "cat")) (.error "m")]

/-- The state after `hazardOps`: a dangling posting for the never-issued
id 0. -/
def hazardState : State := run hazardOps

/-- The hazard trace followed by a successful `add_document`, which reuses
the pending id 0 on top of its dangling postings. -/
def hazardSuccOps : List Op :=
  hazardOps ++ [Op.add "f2" (.ok (asciiBytes "dog")) (.ok demoMeta)]

end Oxidex

namespace Oxidex

/-! ### Lemmas about the association-list maps -/

theorem lookupKey_eq_none_iff {α β : Type} [DecidableEq α] (l : List (α × β)) (k : α) :
    lookupKey l k = none ↔ ∀ p ∈ l, p.1 ≠ k := by
  induction l with
  | nil => simp [lookupKey]
  | cons p rest ih => by_cases h : p.1 = k <;> simp [lookupKey, h, ih]

theorem lookupKey_append {α β : Type} [DecidableEq α] (l₁ l₂ : List (α × β)) (k : α) :
    lookupKey (l₁ ++ l₂) k =
      match lookupKey l₁ k with
      | some v => some v
      | none => lookupKey l₂ k := by
  induction l₁ with
  | nil => simp [lookupKey]
  | cons p rest ih => by_cases h : p.1 = k <;> simp [lookupKey, h, ih]

theorem lookupKey_eraseKey_self {α β : Type} [DecidableEq α] (l : List (α × β)) (k : α) :
    lookupKey (eraseKey l k) k = none := by
  induction l with
  | nil => simp [eraseKey, lookupKey]
  | cons p rest ih => by_cases h : p.1 = k <;> simp [eraseKey, lookupKey, h, ih]

theorem lookupKey_eraseKey_ne {α β : Type} [DecidableEq α] (l : List (α × β))
    {k k' : α} (h : k' ≠ k) : lookupKey (eraseKey l k) k' = lookupKey l k' := by
  induction l with
  | nil => simp [eraseKey]
  | cons p rest ih =>
    by_cases h1 : p.1 = k
    · subst h1
      simp [eraseKey, lookupKey, ih, Ne.symm h]
    · by_cases h2 : p.1 = k' <;> simp [eraseKey, lookupKey, h1, h2, ih, h]

theorem mem_eraseKey {α β : Type} [DecidableEq α] (l : List (α × β)) (k : α)
    (p : α × β) : p ∈ eraseKey l k ↔ p ∈ l ∧ p.1 ≠ k := by
  induction l with
  | nil => simp [eraseKey]
  | cons q rest ih =>
    by_cases h : q.1 = k
    · simp only [eraseKey, if_pos h, ih, List.mem_cons]
      constructor
      · exact fun ⟨hm, hk⟩ => ⟨Or.inr hm, hk⟩
      · rintro ⟨hm | hm, hk⟩
        · exact absurd (hm ▸ h) hk
        · exact ⟨hm, hk⟩
    · simp only [eraseKey, if_neg h, List.mem_cons, ih]
      constructor
      · rintro (rfl | ⟨hm, hk⟩)
        · exact ⟨Or.inl rfl, h⟩
        · exact ⟨Or.inr hm, hk⟩
      · rintro ⟨rfl | hm, hk⟩
        · exact Or.inl rfl
        · exact Or.inr ⟨hm, hk⟩

theorem eraseKey_eq_self {α β : Type} [DecidableEq α] {l : List (α × β)} {k : α}
    (h : ∀ p ∈ l, p.1 ≠ k) : eraseKey l k = l := by
  induction l with
  | nil => rfl
  | cons p rest ih =>
    have hp : p.1 ≠ k := h p (List.mem_cons_self p rest)
    simp only [eraseKey, if_neg hp]
    exact congrArg _ (ih fun q hq => h q (List.mem_cons_of_mem p hq))

theorem lookupKey_insertKey_self {α β : Type} [DecidableEq α] (l : List (α × β))
    (k : α) (v : β) : lookupKey (insertKey l k v) k = some v := by
  unfold insertKey
  rw [lookupKey_append, lookupKey_eraseKey_self]
  simp [lookupKey]

theorem lookupKey_insertKey_ne {α β : Type} [DecidableEq α] (l : List (α × β))
    {k k' : α} (v : β) (h : k' ≠ k) :
    lookupKey (insertKey l k v) k' = lookupKey l k' := by
  unfold insertKey
  rw [lookupKey_append]
  cases he : lookupKey (eraseKey l k) k' with
  | none => rw [lookupKey_eraseKey_ne l h] at he; simp [he, lookupKey, Ne.symm h]
  | some w => rw [lookupKey_eraseKey_ne l h] at he; simp [he]

theorem mem_pruneEmpty (idx : List (String × List (Nat × Nat)))
    (p : String × List (Nat × Nat)) : p ∈ pruneEmpty idx ↔ p ∈ idx ∧ p.2 ≠ [] := by
  simp [pruneEmpty, List.mem_filter]

theorem pruneEmpty_eq_self {idx : List (String × List (Nat × Nat))}
    (h : ∀ p ∈ idx, p.2 ≠ []) : pruneEmpty idx = idx := by
  rw [pruneEmpty, List.filter_eq_self]
  intro p hp
  simpa using h p hp

theorem countFor_pruneEmpty (idx : List (String × List (Nat × Nat))) (id : Nat) :
    countFor (pruneEmpty idx) id = countFor idx id := by
  induction idx with
  | nil => rfl
  | cons p rest ih =>
    obtain ⟨t, pl⟩ := p
    by_cases h : pl = []
    · subst h; simpa [pruneEmpty, countFor, lookupKey] using ih
    · simp only [pruneEmpty, List.filter_cons] at ih ⊢
      simp [countFor, h, ih]
      simpa [pruneEmpty, countFor] using ih

end Oxidex

namespace Oxidex

/-! ### Lemmas about posting-list increments -/

theorem lookupKey_bumpPosting_self (pl : List (Nat × Nat)) (id : Nat) :
    lookupKey (bumpPosting pl id) id = some ((lookupKey pl id).getD 0 + 1) := by
  induction pl with
  | nil => simp [bumpPosting, lookupKey]
  | cons q rest ih =>
    obtain ⟨i, c⟩ := q
    by_cases h : i = id <;> simp [bumpPosting, lookupKey, h, ih]

theorem lookupKey_bumpPosting_ne (pl : List (Nat × Nat)) {id j : Nat} (h : j ≠ id) :
    lookupKey (bumpPosting pl id) j = lookupKey pl j := by
  induction pl with
  | nil => simp [bumpPosting, lookupKey, Ne.symm h]
  | cons q rest ih =>
    obtain ⟨i, c⟩ := q
    by_cases h1 : i = id
    · subst h1; simp [bumpPosting, lookupKey, Ne.symm h]
    · by_cases h2 : i = j <;> simp [bumpPosting, lookupKey, h1, h2, ih, h]

theorem lookupKey_bumpIndex_self (idx : List (String × List (Nat × Nat)))
    (t : String) (id : Nat) :
    lookupKey (bumpIndex idx t id) t
      = some (bumpPosting ((lookupKey idx t).getD []) id) := by
  induction idx with
  | nil => simp [bumpIndex, lookupKey]
  | cons q rest ih =>
    obtain ⟨s, pl⟩ := q
    by_cases h : s = t <;> simp [bumpIndex, lookupKey, h, ih]

theorem lookupKey_bumpIndex_ne (idx : List (String × List (Nat × Nat)))
    {t s : String} (id : Nat) (h : s ≠ t) :
    lookupKey (bumpIndex idx t id) s = lookupKey idx s := by
  induction idx with
  | nil => simp [bumpIndex, lookupKey, Ne.symm h]
  | cons q rest ih =>
    obtain ⟨u, pl⟩ := q
    by_cases h1 : u = t
    · subst h1; simp [bumpIndex, lookupKey, Ne.symm h]
    · by_cases h2 : u = s <;> simp [bumpIndex, lookupKey, h1, h2, ih, h]

theorem postingCount_eq_getD (idx : List (String × List (Nat × Nat)))
    (t : String) (id : Nat) :
    postingCount idx t id = (lookupKey ((lookupKey idx t).getD []) id).getD 0 := by
  unfold postingCount
  cases h : lookupKey idx t <;> simp [lookupKey]

theorem postingCount_bumpIndex (idx : List (String × List (Nat × Nat)))
    (t t' : String) (id id' : Nat) :
    postingCount (bumpIndex idx t id) t' id'
      = postingCount idx t' id' + (if t' = t ∧ id' = id then 1 else 0) := by
  by_cases ht : t' = t
  · subst ht
    rw [postingCount_eq_getD, postingCount_eq_getD, lookupKey_bumpIndex_self]
    simp only [Option.getD_some]
    by_cases hid : id' = id
    · subst hid; rw [lookupKey_bumpPosting_self]; simp
    · rw [lookupKey_bumpPosting_ne _ hid]; simp [hid]
  · rw [postingCount_eq_getD, postingCount_eq_getD, lookupKey_bumpIndex_ne idx id ht]
    simp [ht]

theorem countFor_nil (id : Nat) : countFor [] id = 0 := rfl

theorem countFor_cons (t : String) (pl : List (Nat × Nat))
    (rest : List (String × List (Nat × Nat))) (id : Nat) :
    countFor ((t, pl) :: rest) id = (lookupKey pl id).getD 0 + countFor rest id := by
  simp [countFor]

theorem countFor_bumpIndex (idx : List (String × List (Nat × Nat)))
    (t : String) (id : Nat) :
    countFor (bumpIndex idx t id) id = countFor idx id + 1 := by
  induction idx with
  | nil => simp [bumpIndex, countFor, lookupKey_bumpPosting_self, lookupKey]
  | cons q rest ih =>
    obtain ⟨s, pl⟩ := q
    by_cases h : s = t
    · rw [bumpIndex, if_pos h, countFor_cons, countFor_cons,
        lookupKey_bumpPosting_self]
      simp; omega
    · rw [bumpIndex, if_neg h, countFor_cons, countFor_cons, ih]
      omega

theorem countFor_bumpIndex_ne (idx : List (String × List (Nat × Nat)))
    (t : String) {id j : Nat} (h : j ≠ id) :
    countFor (bumpIndex idx t id) j = countFor idx j := by
  induction idx with
  | nil => simp [bumpIndex, countFor, lookupKey, Ne.symm h]
  | cons q rest ih =>
    obtain ⟨s, pl⟩ := q
    by_cases hst : s = t
    · rw [bumpIndex, if_pos hst, countFor_cons, countFor_cons,
        lookupKey_bumpPosting_ne _ h]
    · rw [bumpIndex, if_neg hst, countFor_cons, countFor_cons, ih]

theorem indexTokens_nil (idx : List (String × List (Nat × Nat))) (id : Nat) :
    indexTokens idx [] id = idx := rfl

theorem indexTokens_cons (idx : List (String × List (Nat × Nat)))
    (tok : String) (toks : List String) (id : Nat) :
    indexTokens idx (tok :: toks) id = indexTokens (bumpIndex idx tok id) toks id := rfl

theorem countFor_indexTokens (tokens : List String)
    (idx : List (String × List (Nat × Nat))) (id : Nat) :
    countFor (indexTokens idx tokens id) id = countFor idx id + tokens.length := by
  induction tokens generalizing idx with
  | nil => simp [indexTokens_nil]
  | cons tok toks ih =>
    rw [indexTokens_cons, ih, countFor_bumpIndex]
    simp; omega

theorem countFor_indexTokens_ne (tokens : List String)
    (idx : List (String × List (Nat × Nat))) {id j : Nat} (h : j ≠ id) :
    countFor (indexTokens idx tokens id) j = countFor idx j := by
  induction tokens generalizing idx with
  | nil => simp [indexTokens_nil]
  | cons tok toks ih =>
    rw [indexTokens_cons, ih, countFor_bumpIndex_ne _ _ h]

theorem postingCount_indexTokens (tokens : List String)
    (idx : List (String × List (Nat × Nat))) (t : String) (id : Nat) :
    postingCount (indexTokens idx tokens id) t id
      = postingCount idx t id + tokens.count t := by
  induction tokens generalizing idx with
  | nil => simp [indexTokens_nil]
  | cons tok toks ih =>
    rw [indexTokens_cons, ih, postingCount_bumpIndex]
    by_cases h : t = tok <;> simp [List.count_cons, h] <;> omega

theorem countFor_scrub (idx : List (String × List (Nat × Nat))) (id j : Nat) :
    countFor (idx.map fun p => (p.1, eraseKey p.2 id)) j
      = if j = id then 0 else countFor idx j := by
  induction idx with
  | nil => simp [countFor]
  | cons q rest ih =>
    obtain ⟨t, pl⟩ := q
    by_cases h : j = id
    · subst h
      simp only [List.map_cons, countFor_cons, lookupKey_eraseKey_self, ih]
      simp
    · simp only [List.map_cons, countFor_cons, lookupKey_eraseKey_ne pl h, ih, if_neg h]

end Oxidex

namespace Oxidex

/-! ### Shapes of the three `add_document` outcomes and of the step function -/

theorem add_document_readFail (st : State) (path e : String)
    (metaRes : Except String DocMetaData) :
    add_document st path (.error e) metaRes = (.error (.AddDocumentError e), st) := rfl

theorem add_document_metaFail (st : State) (path : String) (bytes : List Nat)
    (e : String) :
    add_document st path (.ok bytes) (.error e)
      = (.error (.AddDocumentError e),
         { st with inverted_index :=
            indexTokens st.inverted_index (tokenize bytes) st.next_idx }) := rfl

theorem add_document_ok (st : State) (path : String) (bytes : List Nat)
    (md : DocMetaData) :
    add_document st path (.ok bytes) (.ok md)
      = (.ok (), ⟨insertKey st.documents st.next_idx
            ⟨st.next_idx, path, md, (tokenize bytes).length⟩,
          indexTokens st.inverted_index (tokenize bytes) st.next_idx,
          st.next_idx + 1⟩) := rfl

theorem addSucceeds_readFail (p e : String) (m : Except String DocMetaData) :
    addSucceeds (.add p (.error e) m) = false := rfl

theorem addSucceeds_metaFail (p : String) (bytes : List Nat) (e : String) :
    addSucceeds (.add p (.ok bytes) (.error e)) = false := rfl

theorem addSucceeds_ok (p : String) (bytes : List Nat) (md : DocMetaData) :
    addSucceeds (.add p (.ok bytes) (.ok md)) = true := rfl

theorem addSucceeds_remove (id : Nat) : addSucceeds (.remove id) = false := rfl

theorem next_idx_stepOp (st : State) (op : Op) :
    (stepOp st op).next_idx = st.next_idx + (if addSucceeds op then 1 else 0) := by
  cases op with
  | add p r m => cases r <;> cases m <;> rfl
  | remove id => rfl

theorem runFrom_nil (st : State) : runFrom st [] = st := rfl

theorem runFrom_cons (st : State) (op : Op) (ops : List Op) :
    runFrom st (op :: ops) = runFrom (stepOp st op) ops := rfl

theorem countSuccess_nil : countSuccess [] = 0 := rfl

theorem countSuccess_cons (op : Op) (ops : List Op) :
    countSuccess (op :: ops) = (if addSucceeds op then 1 else 0) + countSuccess ops := by
  by_cases h : addSucceeds op <;> simp [countSuccess, List.filter_cons, h] <;> omega

theorem assignedIds_nil (st : State) : assignedIds st [] = [] := rfl

theorem assignedIds_cons_readFail (st : State) (p e : String)
    (m : Except String DocMetaData) (ops : List Op) :
    assignedIds st (.add p (.error e) m :: ops) = assignedIds st ops := rfl

theorem assignedIds_cons_metaFail (st : State) (p : String) (bytes : List Nat)
    (e : String) (ops : List Op) :
    assignedIds st (.add p (.ok bytes) (.error e) :: ops)
      = assignedIds
          ⟨st.documents,
            indexTokens st.inverted_index (tokenize bytes) st.next_idx,
            st.next_idx⟩ ops := rfl

theorem assignedIds_cons_ok (st : State) (p : String) (bytes : List Nat)
    (md : DocMetaData) (ops : List Op) :
    assignedIds st (.add p (.ok bytes) (.ok md) :: ops)
      = st.next_idx :: assignedIds
          ⟨insertKey st.documents st.next_idx
            ⟨st.next_idx, p, md, (tokenize bytes).length⟩,
          indexTokens st.inverted_index (tokenize bytes) st.next_idx,
          st.next_idx + 1⟩ ops := rfl

theorem assignedIds_cons_remove (st : State) (id : Nat) (ops : List Op) :
    assignedIds st (.remove id :: ops) = assignedIds (remove_id st id).2 ops := rfl

theorem assignedIds_eq_range' (ops : List Op) : ∀ st : State,
    assignedIds st ops = List.range' st.next_idx (countSuccess ops) := by
  induction ops with
  | nil => intro st; simp [assignedIds_nil, countSuccess_nil]
  | cons op ops ih =>
    intro st
    match op with
    | .add p (.error e) m =>
      rw [assignedIds_cons_readFail, ih, countSuccess_cons, addSucceeds_readFail]
      simp
    | .add p (.ok bytes) (.error e) =>
      rw [assignedIds_cons_metaFail, ih, countSuccess_cons, addSucceeds_metaFail]
      simp
    | .add p (.ok bytes) (.ok md) =>
      rw [assignedIds_cons_ok, ih]
      have hc : countSuccess (Op.add p (.ok bytes) (.ok md) :: ops)
          = countSuccess ops + 1 := by
        simp [countSuccess_cons, addSucceeds_ok, Nat.add_comm]
      rw [hc, List.range'_succ]
    | .remove id =>
      rw [assignedIds_cons_remove, ih, countSuccess_cons, addSucceeds_remove,
        show (remove_id st id).2.next_idx = st.next_idx from rfl]
      simp

end Oxidex

namespace Oxidex

/-! ### Preservation of the cross-structure invariant along clean traces -/

theorem engineInv_new : EngineInv State.new := by
  constructor
  · intro j hj; exact ⟨rfl, rfl⟩
  · intro id e h; simp [State.new, lookupKey] at h

theorem engineInv_step (st : State) (op : Op) (h : EngineInv st)
    (hc : isCleanOp op = true) : EngineInv (stepOp st op) := by
  obtain ⟨hfresh, hsum⟩ := h
  cases op with
  | remove rid =>
    constructor
    · intro j hj
      have hj' := hfresh j hj
      constructor
      · rw [show (stepOp st (.remove rid)).inverted_index
            = pruneEmpty (st.inverted_index.map fun p => (p.1, eraseKey p.2 rid))
            from rfl]
        rw [countFor_pruneEmpty, countFor_scrub]
        by_cases hjr : j = rid
        · simp [hjr]
        · simp [hjr, hj'.1]
      · rw [show (stepOp st (.remove rid)).documents = eraseKey st.documents rid
            from rfl]
        by_cases hjr : j = rid
        · subst hjr; exact lookupKey_eraseKey_self _ _
        · rw [lookupKey_eraseKey_ne _ hjr]; exact hj'.2
    · intro id e hid
      rw [show (stepOp st (.remove rid)).documents = eraseKey st.documents rid
          from rfl] at hid
      by_cases hidr : id = rid
      · subst hidr; rw [lookupKey_eraseKey_self] at hid; exact absurd hid (by simp)
      · rw [lookupKey_eraseKey_ne _ hidr] at hid
        rw [show (stepOp st (.remove rid)).inverted_index
            = pruneEmpty (st.inverted_index.map fun p => (p.1, eraseKey p.2 rid))
            from rfl]
        rw [countFor_pruneEmpty, countFor_scrub, if_neg hidr]
        exact hsum id e hid
  | add p r m =>
    cases r with
    | error e => exact ⟨hfresh, hsum⟩
    | ok bytes =>
      cases m with
      | error e =>
        have htok : tokenize bytes = [] := by
          simpa [isCleanOp] using hc
        rw [show stepOp st (.add p (.ok bytes) (.error e))
            = ⟨st.documents,
                indexTokens st.inverted_index (tokenize bytes) st.next_idx,
                st.next_idx⟩ from rfl, htok, indexTokens_nil]
        exact ⟨hfresh, hsum⟩
      | ok md =>
        constructor
        · intro j hj
          have hj1 : st.next_idx + 1 ≤ j := hj
          have hjs : st.next_idx ≤ j := le_trans (Nat.le_succ _) hj1
          have hf := hfresh j hjs
          constructor
          · rw [show (stepOp st (.add p (.ok bytes) (.ok md))).inverted_index
                = indexTokens st.inverted_index (tokenize bytes) st.next_idx
                from rfl]
            rw [countFor_indexTokens_ne _ _ (by omega : j ≠ st.next_idx)]
            exact hf.1
          · rw [show (stepOp st (.add p (.ok bytes) (.ok md))).documents
                = insertKey st.documents st.next_idx
                    ⟨st.next_idx, p, md, (tokenize bytes).length⟩ from rfl]
            rw [lookupKey_insertKey_ne _ _ (by omega : j ≠ st.next_idx)]
            exact hf.2
        · intro id e hid
          rw [show (stepOp st (.add p (.ok bytes) (.ok md))).documents
              = insertKey st.documents st.next_idx
                  ⟨st.next_idx, p, md, (tokenize bytes).length⟩ from rfl] at hid
          rw [show (stepOp st (.add p (.ok bytes) (.ok md))).inverted_index
              = indexTokens st.inverted_index (tokenize bytes) st.next_idx
              from rfl]
          by_cases hidn : id = st.next_idx
          · rw [hidn] at hid ⊢
            rw [lookupKey_insertKey_self] at hid
            have he : e = ⟨st.next_idx, p, md, (tokenize bytes).length⟩ :=
              (Option.some.inj hid).symm
            rw [countFor_indexTokens, (hfresh st.next_idx le_rfl).1, he]
            simp
          · rw [lookupKey_insertKey_ne _ _ hidn] at hid
            rw [countFor_indexTokens_ne _ _ hidn]
            exact hsum id e hid

theorem engineInv_runFrom (ops : List Op) : ∀ st : State, EngineInv st →
    (∀ op ∈ ops, isCleanOp op = true) → EngineInv (runFrom st ops) := by
  induction ops with
  | nil => intro st h _; exact h
  | cons op ops ih =>
    intro st h hc
    rw [runFrom_cons]
    exact ih (stepOp st op)
      (engineInv_step st op h (hc op (List.mem_cons_self _ _)))
      fun o ho => hc o (List.mem_cons_of_mem _ ho)

/-! ### The source scoring pipeline equals the spec formula -/

theorem get_normalised_tf_idf_eq_scoreSpec (st : State) (t : String) (d : Nat) :
    get_normalised_tf_idf st t d = scoreSpec st t d := by
  unfold get_normalised_tf_idf get_tf_idf term_frequency inverse_document_frequency
    scoreSpec termFrequencySpec documentFrequencySpec totalDocumentsSpec
    tokenCountSpec get_doc
  cases h1 : lookupKey st.inverted_index t <;>
    cases h2 : lookupKey st.documents d <;>
      simp [h1, h2]

/-! ### Search shape lemmas -/

theorem search_eq_empty_of_absent (st : State) (q : String)
    (h : lookupKey st.inverted_index q = none) : search st q = [] := by
  unfold search
  rw [h]
  rfl

theorem search_eq_sort_of_present (st : State) (q : String)
    (pl : List (Nat × Nat)) (h : lookupKey st.inverted_index q = some pl) :
    search st q = List.insertionSort searchOrder
      (pl.map fun p => ⟨p.1, get_normalised_tf_idf st q p.1⟩) := by
  unfold search
  rw [h]

theorem search_sorted (st : State) (q : String) :
    List.Sorted searchOrder (search st q) := by
  unfold search
  exact List.sorted_insertionSort searchOrder _

theorem search_doc_ids_perm (st : State) (q : String) (pl : List (Nat × Nat))
    (h : lookupKey st.inverted_index q = some pl) :
    List.Perm ((search st q).map SearchResult.doc_id) (pl.map Prod.fst) := by
  rw [search_eq_sort_of_present st q pl h]
  have hp := List.perm_insertionSort searchOrder
    (pl.map fun p => (⟨p.1, get_normalised_tf_idf st q p.1⟩ : SearchResult))
  have := hp.map SearchResult.doc_id
  simpa [List.map_map, Function.comp] using this

theorem mem_search (st : State) (q : String) (r : SearchResult)
    (h : r ∈ search st q) :
    ∃ pl p, lookupKey st.inverted_index q = some pl ∧ p ∈ pl
      ∧ r = ⟨p.1, get_normalised_tf_idf st q p.1⟩ := by
  cases hq : lookupKey st.inverted_index q with
  | none => rw [search_eq_empty_of_absent st q hq] at h; exact absurd h (by simp)
  | some pl =>
    rw [search_eq_sort_of_present st q pl hq] at h
    have hmem := (List.perm_insertionSort searchOrder _).subset h
    obtain ⟨p, hp, hr⟩ := List.mem_map.mp hmem
    exact ⟨pl, p, rfl, hp, hr.symm⟩

end Oxidex

namespace Oxidex

theorem remove_id_eq (st : State) (id : Nat) :
    remove_id st id = ((lookupKey st.documents id).isSome,
      ⟨eraseKey st.documents id,
       pruneEmpty (st.inverted_index.map fun p => (p.1, eraseKey p.2 id)),
       st.next_idx⟩) := rfl

/-! ### The claims -/

/-- Claim C1: for every term `t` and every result returned by `search`, the
score equals `termFrequency(t,d) * log10(N / (documentFrequency(t) + 1)) /
sqrt(tokenCount(d))`, with `tokenCount(d)` defaulting to 1 when `d` is
missing from the Registry. -/
theorem search_score_matches_spec_formula (st : State) (t : String)
    (r : SearchResult) (hr : r ∈ search st t) :
    r.score = scoreSpec st t r.doc_id := by
  obtain ⟨pl, p, hq, hp, hrEq⟩ := mem_search st t r hr
  subst hrEq
  exact get_normalised_tf_idf_eq_scoreSpec st t p.1

/-- Witness for C1 at a one-document state. -/
theorem search_score_matches_spec_formula_witness :
    ((⟨0, get_normalised_tf_idf demoState "cat" 0⟩ : SearchResult)
        ∈ search demoState "cat")
    ∧ (⟨0, get_normalised_tf_idf demoState "cat" 0⟩ : SearchResult).score
        = scoreSpec demoState "cat"
            (⟨0, get_normalised_tf_idf demoState "cat" 0⟩ : SearchResult).doc_id := by
  have hm : (⟨0, get_normalised_tf_idf demoState "cat" 0⟩ : SearchResult)
      ∈ search demoState "cat" := by
    rw [search_eq_sort_of_present demoState "cat" [(0, 1)] (by decide)]
    simp
  exact ⟨hm, search_score_matches_spec_formula demoState "cat" _ hm⟩

/-- Claim C2: from a new engine, the ids assigned by successful
`add_document` calls are exactly `0, 1, 2, …` in call order regardless of
interleaved removals; `next_idx` starts at 0, never decreases, and is
incremented exactly once per successful add. -/
theorem add_ids_sequential :
    (∀ ops : List Op, assignedIds State.new ops = List.range (countSuccess ops))
    ∧ State.new.next_idx = 0
    ∧ (∀ (st : State) (op : Op), (stepOp st op).next_idx
        = st.next_idx + (if addSucceeds op then 1 else 0))
    ∧ ∀ (st : State) (op : Op), st.next_idx ≤ (stepOp st op).next_idx := by
  refine ⟨fun ops => ?_, rfl, next_idx_stepOp,
    fun st op => by rw [next_idx_stepOp]; omega⟩
  rw [assignedIds_eq_range' ops State.new, List.range_eq_range']
  rfl

/-- Claim C3: when `remove_id st x` reports that `x` existed, the resulting
state has no Registry entry for `x`, no posting entry for `x` in any term's
posting list, and no term mapped to an empty posting list. -/
theorem remove_id_cleanses (st : State) (x : Nat)
    (h : (remove_id st x).1 = true) :
    get_doc (remove_id st x).2 x = none
    ∧ (∀ p ∈ (remove_id st x).2.inverted_index, ∀ q ∈ p.2, q.1 ≠ x)
    ∧ ∀ p ∈ (remove_id st x).2.inverted_index, p.2 ≠ [] := by
  rw [remove_id_eq]
  refine ⟨lookupKey_eraseKey_self st.documents x, ?_, ?_⟩
  · intro p hp q hq
    obtain ⟨hpm, _⟩ := (mem_pruneEmpty _ p).mp hp
    obtain ⟨w, hw, hweq⟩ := List.mem_map.mp hpm
    rw [← hweq] at hq
    exact ((mem_eraseKey w.2 x q).mp hq).2
  · intro p hp
    exact ((mem_pruneEmpty _ p).mp hp).2

/-- Witness for C3 at a one-document state. -/
theorem remove_id_cleanses_witness :
    (remove_id demoState 0).1 = true
    ∧ get_doc (remove_id demoState 0).2 0 = none :=
  ⟨by decide, (remove_id_cleanses demoState 0 (by decide)).1⟩

/-- Claim C4 counterexample: in the reachable state left by an
`add_document` that tokenized one token and then failed at the metadata
step, `remove_id 0` returns `false` for the never-issued id 0 and yet
mutates the engine (it scrubs the dangling posting from the index). -/
theorem remove_id_not_noop_on_dangling_id :
    (remove_id hazardState 0).1 = false
    ∧ (remove_id hazardState 0).2 ≠ hazardState := by decide

/-- Pointwise frame lemma for `remove_id`: on an id absent from the
Registry it returns `false`, and it leaves the state unchanged when the id
occurs in no posting list and no posting list is empty.  The reachability
bridge — that these hypotheses hold for never-issued or already-removed
ids in every cleanly reachable state — is `indexWf_runFrom` below. -/
theorem remove_id_noop_of_absent (st : State) (id : Nat)
    (hdoc : lookupKey st.documents id = none)
    (hidx : ∀ p ∈ st.inverted_index, ∀ q ∈ p.2, q.1 ≠ id)
    (hne : ∀ p ∈ st.inverted_index, p.2 ≠ []) :
    remove_id st id = (false, st) := by
  have heras : eraseKey st.documents id = st.documents :=
    eraseKey_eq_self ((lookupKey_eq_none_iff st.documents id).mp hdoc)
  have hmap : (st.inverted_index.map fun p => (p.1, eraseKey p.2 id))
      = st.inverted_index := by
    have hpt : (st.inverted_index.map fun p => (p.1, eraseKey p.2 id))
        = st.inverted_index.map fun p => p :=
      List.map_congr_left fun p hp => by
        rw [eraseKey_eq_self fun q hq => hidx p hp q hq]
    rw [hpt, List.map_id']
  rw [remove_id_eq, hdoc, heras, hmap, pruneEmpty_eq_self hne]
  rfl

/-- Claim C5: tokenization never fails on any byte sequence (the decoder
substitutes `replacementChar` for invalid sequences), `"cat dog"` and
`"Cat, Dog!"` both tokenize to `["cat", "dog"]`, and the `token_count`
recorded by a successful `add_document` is the length of the token
sequence. -/
theorem tokenizer_pipeline :
    tokenize (asciiBytes "cat dog") = ["cat", "dog"]
    ∧ tokenize (asciiBytes "Cat, Dog!") = ["cat", "dog"]
    ∧ from_utf8_lossy [0xFF] = [replacementChar]
    ∧ ∀ (st : State) (path : String) (bytes : List Nat) (md : DocMetaData),
        get_doc (add_document st path (.ok bytes) (.ok md)).2 st.next_idx
          = some ⟨st.next_idx, path, md, (tokenize bytes).length⟩ := by
  refine ⟨by decide, by decide, by decide, fun st path bytes md => ?_⟩
  rw [add_document_ok]
  exact lookupKey_insertKey_self st.documents st.next_idx _

/-- Claim C6: `search` returns the empty list when the query term is
absent from the index; otherwise it returns exactly one result per id of
the term's posting list; and the result list is sorted by descending score
(the source comparator, total over the real-valued idealisation). -/
theorem search_results_shape (st : State) (q : String) :
    (lookupKey st.inverted_index q = none → search st q = [])
    ∧ (∀ pl, lookupKey st.inverted_index q = some pl →
        List.Perm ((search st q).map SearchResult.doc_id) (pl.map Prod.fst))
    ∧ List.Sorted searchOrder (search st q) :=
  ⟨search_eq_empty_of_absent st q,
   fun pl h => search_doc_ids_perm st q pl h,
   search_sorted st q⟩

/-- Witness for C6: the absent case on a new engine and the present case
on a one-document state. -/
theorem search_results_shape_witness :
    (lookupKey State.new.inverted_index "cat" = none ∧ search State.new "cat" = [])
    ∧ (lookupKey demoState.inverted_index "dog" = some [(0, 1)]
       ∧ List.Perm ((search demoState "dog").map SearchResult.doc_id)
           ([(0, 1)].map Prod.fst)) :=
  ⟨⟨rfl, (search_results_shape State.new "cat").1 rfl⟩,
   ⟨by decide, (search_results_shape demoState "dog").2.1 [(0, 1)] (by decide)⟩⟩

/-- Claim C7: when the file read fails, `add_document` returns the
read-failure error and the state is unchanged. -/
theorem add_document_read_failure_frame (st : State) (path e : String)
    (metaRes : Except String DocMetaData) :
    add_document st path (.error e) metaRes
      = (.error (.AddDocumentError e), st) := rfl

/-- Claim C8: when the metadata step fails after a successful read, the
call returns the metadata error, the Registry and `next_idx` are
unchanged, the index holds exactly the posting increments for the pending
id, and each token of the content has a positive posting count for the
pending id. -/
theorem add_document_metadata_failure_keeps_increments (st : State)
    (path : String) (bytes : List Nat) (e : String) :
    (add_document st path (.ok bytes) (.error e)
      = (.error (.AddDocumentError e),
         ⟨st.documents,
          indexTokens st.inverted_index (tokenize bytes) st.next_idx,
          st.next_idx⟩))
    ∧ ∀ t ∈ tokenize bytes,
        1 ≤ postingCount (indexTokens st.inverted_index (tokenize bytes) st.next_idx)
              t st.next_idx := by
  refine ⟨rfl, fun t ht => ?_⟩
  rw [postingCount_indexTokens]
  have hpos : 0 < (tokenize bytes).count t := List.count_pos_iff.mpr ht
  omega

/-- Witness for C8: a metadata-failure add of `"cat"` on a new engine
leaves a positive posting count for the pending id 0. -/
theorem add_document_metadata_failure_keeps_increments_witness :
    "cat" ∈ tokenize (asciiBytes "cat")
    ∧ 1 ≤ postingCount
          (indexTokens State.new.inverted_index (tokenize (asciiBytes "cat"))
            State.new.next_idx) "cat" State.new.next_idx :=
  ⟨by decide,
   (add_document_metadata_failure_keeps_increments State.new "f1"
     (asciiBytes "cat") "m").2 "cat" (by decide)⟩

/-- Claim C9 counterexample: after a metadata-failure add of `"cat"`
followed by a successful add of `"dog"`, document 0 is registered with
`token_count` 1 but its posting counts across the index sum to 2 — the
reachable state violates the claimed invariant. -/
theorem token_count_sum_invariant_cex :
    lookupKey (run hazardSuccOps).documents 0 = some ⟨0, "f2", demoMeta, 1⟩
    ∧ countFor (run hazardSuccOps).inverted_index 0 = 2
    ∧ countFor (run hazardSuccOps).inverted_index 0
        ≠ (⟨0, "f2", demoMeta, 1⟩ : DocumentEntry).token_count := by decide

/-- Claim C9 (amended): in every state reachable by operations none of
which is an `add_document` that tokenizes at least one token and then
fails at the metadata step, every registered document's posting counts
summed over all terms equal its `token_count`. -/
theorem token_count_sum_invariant (ops : List Op)
    (hclean : ∀ op ∈ ops, isCleanOp op = true) :
    ∀ id e, lookupKey (run ops).documents id = some e →
      countFor (run ops).inverted_index id = e.token_count :=
  fun id e h =>
    (engineInv_runFrom ops State.new engineInv_new hclean).2 id e h

/-- Witness for the amended C9 on a clean one-add trace. -/
theorem token_count_sum_invariant_witness :
    (∀ op ∈ demoOps, isCleanOp op = true)
    ∧ countFor (run demoOps).inverted_index 0
        = (⟨0, "f1", demoMeta, 2⟩ : DocumentEntry).token_count :=
  ⟨by decide,
   token_count_sum_invariant demoOps (by decide) 0 ⟨0, "f1", demoMeta, 2⟩
     (by decide)⟩

/-- Claim C10: in the reachable state left by a metadata-failure add of
`"cat"`, the pending id 0 is absent from the Registry yet `search "cat"`
returns it, scored with the `token_count` fallback of 1. -/
theorem search_returns_dangling_id :
    get_doc hazardState 0 = none
    ∧ ((⟨0, get_normalised_tf_idf hazardState "cat" 0⟩ : SearchResult)
        ∈ search hazardState "cat")
    ∧ get_normalised_tf_idf hazardState "cat" 0
        = get_tf_idf hazardState "cat" 0 / Real.sqrt ((1 : Nat) : ℝ) := by
  refine ⟨by decide, ?_, ?_⟩
  · rw [search_eq_sort_of_present hazardState "cat" [(0, 1)] (by decide)]
    simp
  · rfl

end Oxidex

namespace Oxidex

/-! ### Index well-formedness along clean traces, and the reachable frame
property of `remove_id` -/

theorem bumpPosting_nil (id : Nat) : bumpPosting [] id = [(id, 1)] := rfl

theorem bumpPosting_cons (i c : Nat) (rest : List (Nat × Nat)) (id : Nat) :
    bumpPosting ((i, c) :: rest) id
      = if i = id then (i, c + 1) :: rest else (i, c) :: bumpPosting rest id := rfl

theorem bumpIndex_nil (t : String) (id : Nat) :
    bumpIndex [] t id = [(t, bumpPosting [] id)] := rfl

theorem bumpIndex_cons (s : String) (pl : List (Nat × Nat))
    (rest : List (String × List (Nat × Nat))) (t : String) (id : Nat) :
    bumpIndex ((s, pl) :: rest) t id
      = if s = t then (s, bumpPosting pl id) :: rest
        else (s, pl) :: bumpIndex rest t id := rfl

theorem mem_bumpPosting {pl : List (Nat × Nat)} {id : Nat} {q : Nat × Nat}
    (h : q ∈ bumpPosting pl id) : q.1 = id ∨ q ∈ pl := by
  induction pl with
  | nil =>
    rw [bumpPosting_nil] at h
    have hq : q = (id, 1) := by simpa using h
    exact Or.inl (by rw [hq])
  | cons p rest ih =>
    obtain ⟨i, c⟩ := p
    by_cases hi : i = id
    · rw [bumpPosting_cons, if_pos hi] at h
      rcases List.mem_cons.mp h with h1 | h1
      · exact Or.inl (by rw [h1, hi])
      · exact Or.inr (List.mem_cons_of_mem _ h1)
    · rw [bumpPosting_cons, if_neg hi] at h
      rcases List.mem_cons.mp h with h1 | h1
      · exact Or.inr (by rw [h1]; exact List.mem_cons_self _ _)
      · rcases ih h1 with h2 | h2
        · exact Or.inl h2
        · exact Or.inr (List.mem_cons_of_mem _ h2)

theorem bumpPosting_ne_nil (pl : List (Nat × Nat)) (id : Nat) :
    bumpPosting pl id ≠ [] := by
  cases pl with
  | nil => simp [bumpPosting_nil]
  | cons p rest =>
    obtain ⟨i, c⟩ := p
    rw [bumpPosting_cons]
    by_cases hi : i = id <;> simp [hi]

theorem mem_bumpIndex_posting {idx : List (String × List (Nat × Nat))}
    {t : String} {id : Nat} {p : String × List (Nat × Nat)} {q : Nat × Nat}
    (hp : p ∈ bumpIndex idx t id) (hq : q ∈ p.2) :
    q.1 = id ∨ ∃ p' ∈ idx, q ∈ p'.2 := by
  induction idx with
  | nil =>
    rw [bumpIndex_nil] at hp
    have hp' : p = (t, bumpPosting [] id) := by simpa using hp
    rw [hp'] at hq
    rcases mem_bumpPosting hq with h | h
    · exact Or.inl h
    · exact absurd h (by simp)
  | cons r rest ih =>
    obtain ⟨s, pl⟩ := r
    by_cases hs : s = t
    · rw [bumpIndex_cons, if_pos hs] at hp
      rcases List.mem_cons.mp hp with h1 | h1
      · rw [h1] at hq
        rcases mem_bumpPosting hq with h2 | h2
        · exact Or.inl h2
        · exact Or.inr ⟨(s, pl), List.mem_cons_self _ _, h2⟩
      · exact Or.inr ⟨p, List.mem_cons_of_mem _ h1, hq⟩
    · rw [bumpIndex_cons, if_neg hs] at hp
      rcases List.mem_cons.mp hp with h1 | h1
      · exact Or.inr ⟨p, by rw [h1]; exact List.mem_cons_self _ _, hq⟩
      · rcases ih h1 with h2 | ⟨p', hp', hq'⟩
        · exact Or.inl h2
        · exact Or.inr ⟨p', List.mem_cons_of_mem _ hp', hq'⟩

theorem mem_bumpIndex_ne_nil {idx : List (String × List (Nat × Nat))}
    {t : String} {id : Nat}
    (hall : ∀ p' ∈ idx, p'.2 ≠ []) :
    ∀ p ∈ bumpIndex idx t id, p.2 ≠ [] := by
  induction idx with
  | nil =>
    intro p hp
    rw [bumpIndex_nil] at hp
    have hp' : p = (t, bumpPosting [] id) := by simpa using hp
    rw [hp']
    exact bumpPosting_ne_nil [] id
  | cons r rest ih =>
    obtain ⟨s, pl⟩ := r
    intro p hp
    by_cases hs : s = t
    · rw [bumpIndex_cons, if_pos hs] at hp
      rcases List.mem_cons.mp hp with h1 | h1
      · rw [h1]; exact bumpPosting_ne_nil pl id
      · exact hall p (List.mem_cons_of_mem _ h1)
    · rw [bumpIndex_cons, if_neg hs] at hp
      rcases List.mem_cons.mp hp with h1 | h1
      · rw [h1]; exact hall (s, pl) (List.mem_cons_self _ _)
      · exact ih (fun p' hp' => hall p' (List.mem_cons_of_mem _ hp')) p h1

theorem indexTokens_posting_ids (tokens : List String) :
    ∀ (idx : List (String × List (Nat × Nat))) (id : Nat)
      (p : String × List (Nat × Nat)) (q : Nat × Nat),
      p ∈ indexTokens idx tokens id → q ∈ p.2 →
        q.1 = id ∨ ∃ p' ∈ idx, q ∈ p'.2 := by
  induction tokens with
  | nil =>
    intro idx id p q hp hq
    rw [indexTokens_nil] at hp
    exact Or.inr ⟨p, hp, hq⟩
  | cons tok toks ih =>
    intro idx id p q hp hq
    rw [indexTokens_cons] at hp
    rcases ih _ id p q hp hq with h | ⟨p', hp', hq'⟩
    · exact Or.inl h
    · rcases mem_bumpIndex_posting hp' hq' with h2 | h2
      · exact Or.inl h2
      · exact Or.inr h2

theorem indexTokens_ne_nil (tokens : List String) :
    ∀ (idx : List (String × List (Nat × Nat))) (id : Nat),
      (∀ p ∈ idx, p.2 ≠ []) → ∀ p ∈ indexTokens idx tokens id, p.2 ≠ [] := by
  induction tokens with
  | nil =>
    intro idx id h p hp
    rw [indexTokens_nil] at hp
    exact h p hp
  | cons tok toks ih =>
    intro idx id h p hp
    rw [indexTokens_cons] at hp
    exact ih _ id (mem_bumpIndex_ne_nil h) p hp

theorem indexWf_new : IndexWf State.new := by
  constructor <;> intro p hp <;> simp [State.new] at hp

theorem indexWf_step (st : State) (op : Op) (h : IndexWf st)
    (hc : isCleanOp op = true) : IndexWf (stepOp st op) := by
  obtain ⟨hdang, hne⟩ := h
  cases op with
  | remove rid =>
    constructor
    · intro p hp q hq
      rw [show (stepOp st (.remove rid)).inverted_index
          = pruneEmpty (st.inverted_index.map fun p => (p.1, eraseKey p.2 rid))
          from rfl] at hp
      obtain ⟨hpm, _⟩ := (mem_pruneEmpty _ p).mp hp
      obtain ⟨w, hw, hweq⟩ := List.mem_map.mp hpm
      rw [← hweq] at hq
      obtain ⟨hqw, hqne⟩ := (mem_eraseKey w.2 rid q).mp hq
      rw [show (stepOp st (.remove rid)).documents = eraseKey st.documents rid
          from rfl, lookupKey_eraseKey_ne _ hqne]
      exact hdang w hw q hqw
    · intro p hp
      rw [show (stepOp st (.remove rid)).inverted_index
          = pruneEmpty (st.inverted_index.map fun p => (p.1, eraseKey p.2 rid))
          from rfl] at hp
      exact ((mem_pruneEmpty _ p).mp hp).2
  | add pa r m =>
    cases r with
    | error e => exact ⟨hdang, hne⟩
    | ok bytes =>
      cases m with
      | error e =>
        have htok : tokenize bytes = [] := by simpa [isCleanOp] using hc
        rw [show stepOp st (.add pa (.ok bytes) (.error e))
            = ⟨st.documents,
                indexTokens st.inverted_index (tokenize bytes) st.next_idx,
                st.next_idx⟩ from rfl, htok, indexTokens_nil]
        exact ⟨hdang, hne⟩
      | ok md =>
        constructor
        · intro p hp q hq
          rw [show (stepOp st (.add pa (.ok bytes) (.ok md))).inverted_index
              = indexTokens st.inverted_index (tokenize bytes) st.next_idx
              from rfl] at hp
          rw [show (stepOp st (.add pa (.ok bytes) (.ok md))).documents
              = insertKey st.documents st.next_idx
                  ⟨st.next_idx, pa, md, (tokenize bytes).length⟩ from rfl]
          rcases indexTokens_posting_ids (tokenize bytes) st.inverted_index
              st.next_idx p q hp hq with h1 | ⟨p', hp', hq'⟩
          · rw [h1, lookupKey_insertKey_self]; rfl
          · by_cases hqn : q.1 = st.next_idx
            · rw [hqn, lookupKey_insertKey_self]; rfl
            · rw [lookupKey_insertKey_ne _ _ hqn]
              exact hdang p' hp' q hq'
        · intro p hp
          rw [show (stepOp st (.add pa (.ok bytes) (.ok md))).inverted_index
              = indexTokens st.inverted_index (tokenize bytes) st.next_idx
              from rfl] at hp
          exact indexTokens_ne_nil (tokenize bytes) st.inverted_index
            st.next_idx hne p hp

theorem indexWf_runFrom (ops : List Op) : ∀ st : State, IndexWf st →
    (∀ op ∈ ops, isCleanOp op = true) → IndexWf (runFrom st ops) := by
  induction ops with
  | nil => intro st h _; exact h
  | cons op ops ih =>
    intro st h hc
    rw [runFrom_cons]
    exact ih (stepOp st op)
      (indexWf_step st op h (hc op (List.mem_cons_self _ _)))
      fun o ho => hc o (List.mem_cons_of_mem _ ho)

/-- Claim C4 (amended): in every state reachable from a new engine by
operations none of which is an `add_document` call that tokenizes at least
one token and then fails at the metadata step, `remove_id` on an id absent
from the Registry — which, under that reachability, is exactly an id never
issued or already removed — returns `false` and leaves the entire engine
state (Registry, Inverted Index, `next_idx`) unchanged. -/
theorem remove_id_frame_reachable (ops : List Op)
    (hclean : ∀ op ∈ ops, isCleanOp op = true) (x : Nat)
    (hx : get_doc (run ops) x = none) :
    remove_id (run ops) x = (false, run ops) := by
  have hwf : IndexWf (run ops) := indexWf_runFrom ops State.new indexWf_new hclean
  obtain ⟨hdang, hne⟩ := hwf
  have hx' : lookupKey (run ops).documents x = none := hx
  refine remove_id_noop_of_absent (run ops) x hx' ?_ hne
  intro p hp q hq hqx
  have hs := hdang p hp q hq
  rw [hqx, hx'] at hs
  simp at hs

/-- Witness for the amended C4: on the clean one-add trace, removing the
never-issued id 5 returns `false` and is a no-op. -/
theorem remove_id_frame_reachable_witness :
    (∀ op ∈ demoOps, isCleanOp op = true)
    ∧ get_doc (run demoOps) 5 = none
    ∧ remove_id (run demoOps) 5 = (false, run demoOps) :=
  ⟨by decide, by decide,
   remove_id_frame_reachable demoOps (by decide) 5 (by decide)⟩

end Oxidex
